import Mathlib

/-!
Verification of the arbitrary-precision natural number core of `rkn`
(`src/natural.rs`) and its expression evaluator (`src/lib.rs`).

The Rust `Natural` type wraps a `Repr` enum with two shapes: `Small(Limb)`
for values fitting in one 64-bit limb, and `Large(Vec<Limb>)` for a
little-endian limb sequence of length at least two.  We collapse the
wrapper and model limbs as `Nat` with explicit reduction modulo `2 ^ 64`
(the Rust limb type is `u64`).  Operations that can panic in Rust
(`x[0]` on an empty vector, the two `todo!()` multiplication stubs, the
`.expect` on exponent conversion in `eval`) are modelled as `Option`
results, with `none` standing for a panic.
-/

namespace Rkn

/-- Bit width of a limb (`type Limb = u64` in `src/natural.rs`). -/
def W : Nat := 64

/-- Number of distinct limb values: `2 ^ 64`. A limb always lies in `[0, B)`. -/
def B : Nat := 2 ^ W

/-- Rust `u64::overflowing_add`: wrapped sum and an overflow flag. -/
def overflowing_add (x y : Nat) : Nat × Bool :=
  ((x + y) % B, decide (B ≤ x + y))

/-- Rust `u64::carrying_add` (nightly `bigint_helper_methods`): wrapped sum of
two limbs and a carry-in bit, plus a carry-out flag. -/
def carrying_add (x y : Nat) (c : Bool) : Nat × Bool :=
  ((x + y + c.toNat) % B, decide (B ≤ x + y + c.toNat))

/-- Rust `u64::widening_mul`: the double-width product split into
(low limb, high limb). -/
def widening_mul (x y : Nat) : Nat × Nat :=
  (x * y % B, x * y / B)

/-- The Rust `Natural` / `Repr` pair from `src/natural.rs`, collapsed into one
inductive: `small` is `Repr::Small(limb)`, `large` is `Repr::Large(vec)` with
the limbs little-endian.  Equality is the derived structural equality, matching
the derived `PartialEq` on the Rust side. -/
inductive Natural where
  | small (x : Nat)
  | large (limbs : List Nat)
deriving DecidableEq

/-- `Natural::ZERO` from the source: `Small(0)`. -/
def Natural.ZERO : Natural := .small 0

/-- `Natural::ONE` from the source: `Small(1)`. -/
def Natural.ONE : Natural := .small 1

/-- The representation invariant stated in the `Repr` documentation: a `Large`
backing vector holds two or more limbs, and every limb is a `u64` value
(hence `< B`).  `Small` carries a single `u64` value. -/
def Wf : Natural → Prop
  | .small x => x < B
  | .large l => 2 ≤ l.length ∧ ∀ u ∈ l, u < B

instance (a : Natural) : Decidable (Wf a) :=
  match a with
  | .small x => inferInstanceAs (Decidable (x < B))
  | .large l => inferInstanceAs (Decidable (2 ≤ l.length ∧ ∀ u ∈ l, u < B))

/-- The carry-ripple loop of `add_assign` (`for limb in x.iter_mut().skip(1)`
respectively `.skip(y.len())`): while the carry is set, increment the next limb
with overflow detection; the trailing `if carry { x.push(1) }` is folded in as
the `[1]` appended when the carry survives past the last limb. -/
def ripple : List Nat → Bool → List Nat
  | l, false => l
  | [], true => [1]
  | x :: xs, true =>
      (overflowing_add x 1).1 :: ripple xs (overflowing_add x 1).2

/-- The `Large + Large` body of `add_assign` after the length-ordering swap:
add limb-by-limb over the overlapping prefix with `carrying_add`, then ripple
the outstanding carry through the remaining limbs of the first list, pushing a
final `1` if it survives (the ripple-and-push part is `ripple`). -/
def addLimbs : List Nat → List Nat → Bool → List Nat
  | x :: xs, y :: ys, c =>
      (carrying_add x y c).1 :: addLimbs xs ys (carrying_add x y c).2
  | xs, _, c => ripple xs c

/-- The `Large + Small` arm of `add_assign`: add the scalar into limb 0 with
overflow detection (`x[0].overflowing_add(*y)` — a panic on an empty vector,
modelled as `none`, though the invariant rules that out), then ripple the
carry upward. -/
def addLargeSmall : List Nat → Nat → Option Natural
  | [], _ => none
  | x :: xs, y =>
      some (.large ((overflowing_add x y).1 :: ripple xs (overflowing_add x y).2))

/-- `AddAssign for Natural` (by-value form, as `Add` delegates to it).
The `Small + Large` arm swaps the operands and recurses, which lands in the
`Large + Small` arm; the swap-and-recurse is inlined here. -/
def add : Natural → Natural → Option Natural
  | .small x, .small y =>
      if (overflowing_add x y).2 then some (.large [(overflowing_add x y).1, 1])
      else some (.small (overflowing_add x y).1)
  | .small x, .large l => addLargeSmall l x
  | .large l, .small y => addLargeSmall l y
  | .large x, .large y =>
      if x.length < y.length then some (.large (addLimbs y x false))
      else some (.large (addLimbs x y false))

/-- `MulAssign for Natural` (by-value form, as `Mul` delegates to it).  The
match arms appear in source order: the four fast paths, the widening
`Small * Small` case, then the `Small * Large` swap-and-recurse (which lands in
the `Large * Small` arm, inlined here) and the two `todo!()` stubs, modelled as
`none` since `todo!()` panics. -/
def mul : Natural → Natural → Option Natural
  | .small 0, _ => some (.small 0)
  | _, .small 0 => some Natural.ZERO
  | .small 1, b => some b
  | a, .small 1 => some a
  | .small x, .small y =>
      if (widening_mul x y).2 ≠ 0 then
        some (.large [(widening_mul x y).1, (widening_mul x y).2])
      else some (.small (widening_mul x y).1)
  | .small _, .large _ => none
  | .large _, .small _ => none
  | .large _, .large _ => none

/-- Number of limbs in the stored representation: one for `Small`, the vector
length for `Large`. -/
def size : Natural → Nat
  | .small _ => 1
  | .large l => l.length

/-- The most significant stored limb. -/
def msLimb : Natural → Option Nat
  | .small x => some x
  | .large l => l.getLast?

/-- The expression tree `Expr` from `src/syntax.rs`.  Rust literal payloads are
`i64`; we carry them as `Int`. -/
inductive Expr where
  | Literal (n : Int)
  | Neg (e : Expr)
  | Add (l r : Expr)
  | Sub (l r : Expr)
  | Mul (l r : Expr)
  | Pow (b e : Expr)

/-- Wrap an integer into the `i64` range, the release-mode semantics of Rust
integer arithmetic. -/
def wrapI64 (z : Int) : Int := (z + 2 ^ 63) % 2 ^ 64 - 2 ^ 63

/-- `eval` from `src/lib.rs`.  In the `Pow` arm the Rust code converts the
evaluated exponent with `try_into().expect("exponents must be positive")`;
the conversion `i64 -> u32` fails for a negative exponent (or one above
`u32::MAX`) and the `expect` then panics, modelled as `none`. -/
def eval : Expr → Option Int
  | .Literal n => some n
  | .Neg e => (eval e).map fun v => wrapI64 (-v)
  | .Add l r => do
      let a ← eval l
      let b ← eval r
      some (wrapI64 (a + b))
  | .Sub l r => do
      let a ← eval l
      let b ← eval r
      some (wrapI64 (a - b))
  | .Mul l r => do
      let a ← eval l
      let b ← eval r
      some (wrapI64 (a * b))
  | .Pow b e => do
      let bv ← eval b
      let ev ← eval e
      if ev < 0 ∨ 2 ^ 32 ≤ ev then none
      else some (wrapI64 (bv ^ ev.toNat))

theorem B_pos : 0 < B := by
  simp [B]

theorem one_lt_B : 1 < B := by
  simp [B, W]

/-- Adding into lists of equal length is symmetric in the two lists. -/
theorem addLimbs_comm (x : List Nat) : ∀ (y : List Nat), x.length = y.length →
    ∀ c, addLimbs x y c = addLimbs y x c := by
  induction x with
  | nil =>
      intro y h c
      cases y with
      | nil => rfl
      | cons y0 ys => simp at h
  | cons x0 xs ih =>
      intro y h c
      cases y with
      | nil => simp at h
      | cons y0 ys =>
          have hxy : x0 + y0 = y0 + x0 := Nat.add_comm x0 y0
          simp only [addLimbs, carrying_add, hxy]
          rw [ih ys (by simpa using h)]

/-- C1: the claim says multiplication is total and never panics, but the
`Large * Small` and `Large * Large` arms of `mul_assign` are `todo!()` stubs
that panic when reached (modelled as `none`); `Small * Large` with a scalar
other than 0 and 1 swaps into the panicking `Large * Small` arm. -/
theorem mul_large_hits_todo :
    mul (.large [0, 1]) (.small 2) = none ∧
      mul (.small 2) (.large [0, 1]) = none ∧
      mul (.large [0, 1]) (.large [0, 1]) = none :=
  ⟨rfl, rfl, rfl⟩

/-- C9: the claim says `eval` rejects a negative exponent without panicking,
but the `Pow` arm converts the exponent with
`try_into().expect("exponents must be positive")`, which panics (modelled as
`none`) when the exponent evaluates to a negative value such as `-1`. -/
theorem eval_neg_exponent_panics :
    eval (.Pow (.Literal 2) (.Literal (-1))) = none := by
  simp [eval]

/-- C5: the `ZERO` and `ONE` fast paths of `mul_assign` are matched before the
general algorithm, so `a * ONE = a`, `ONE * a = a`, `a * ZERO = ZERO` and
`ZERO * a = ZERO` hold for every `Natural`, `Large` operands included. -/
theorem mul_identity_absorbing (a : Natural) :
    mul a Natural.ONE = some a ∧ mul Natural.ONE a = some a ∧
      mul a Natural.ZERO = some Natural.ZERO ∧
      mul Natural.ZERO a = some Natural.ZERO := by
  rcases a with x | l
  · rcases x with _ | (_ | x) <;> exact ⟨rfl, rfl, rfl, rfl⟩
  · exact ⟨rfl, rfl, rfl, rfl⟩

/-- C7: addition is commutative as a function on stored `Natural` values:
the limb sums are symmetric, the `Small + Large` arm swaps into the
`Large + Small` arm, and `Large + Large` always accumulates into the longer
operand, so both argument orders produce the same result (including the
panic on an invariant-violating empty `Large`, `none` on both sides). -/
theorem add_comm_natural (a b : Natural) : add a b = add b a := by
  rcases a with x | xl <;> rcases b with y | yl
  · simp only [add, overflowing_add, Nat.add_comm x y]
  · rfl
  · rfl
  · simp only [add]
    rcases Nat.lt_trichotomy xl.length yl.length with h | h | h
    · rw [if_pos h, if_neg (by omega)]
    · rw [if_neg (by omega), if_neg (by omega), addLimbs_comm xl yl h]
    · rw [if_neg (by omega), if_pos h]

/-- C8: multiplication is commutative as a function on stored `Natural`
values: the fast paths pair up symmetrically, the widening product of two
limbs is symmetric, and the `Small * Large` order swaps into the same
panicking `Large * Small` stub (`none` on both sides). -/
theorem mul_comm_natural (a b : Natural) : mul a b = mul b a := by
  rcases a with x | xl <;> rcases b with y | yl
  · rcases x with _ | (_ | x) <;> rcases y with _ | (_ | y) <;> try rfl
    simp only [mul, widening_mul, Nat.mul_comm]
  · rcases x with _ | (_ | x) <;> rfl
  · rcases y with _ | (_ | y) <;> rfl
  · rfl

/-- C2: `Small + Small` adds the two limbs with overflow detection; without
overflow the result is `Small` of the sum, with overflow it is
`Large [(x + y) mod B, 1]`. -/
theorem add_small_small_spec (x y : Nat) (_hx : x < B) (_hy : y < B) :
    add (.small x) (.small y) =
      if x + y < B then some (.small (x + y))
      else some (.large [(x + y) % B, 1]) := by
  by_cases h : x + y < B
  · simp [add, overflowing_add, h, Nat.not_le.mpr h, Nat.mod_eq_of_lt h]
  · simp [add, overflowing_add, h, Nat.not_lt.mp h]

/-- Witness for C2, the end-to-end scenario from the spec:
`from_limb(u64::MAX) + from_limb(u64::MAX)` is the two-limb value
`[u64::MAX - 1, 1]`. -/
theorem add_small_small_spec_witness :
    add (.small (B - 1)) (.small (B - 1)) = some (.large [B - 2, 1]) := by
  have h1 : 1 < B := one_lt_B
  have h := add_small_small_spec (B - 1) (B - 1) (by omega) (by omega)
  rw [if_neg (by omega)] at h
  have h2 : (B - 1 + (B - 1)) % B = B - 2 := by
    have h3 : B - 1 + (B - 1) = B + (B - 2) := by omega
    rw [h3, Nat.add_mod_left, Nat.mod_eq_of_lt (by omega)]
  rw [h2] at h
  exact h

/-- C4: `Small * Small` produces the value of the widening product: `Small`
of the low limb when the high limb is zero, `Large [low, high]` otherwise.
The `0`/`1` fast paths short-circuit the widening multiply but yield the same
values, so the statement holds for every pair of limbs. -/
theorem mul_small_small_widening (x y : Nat) (hx : x < B) (hy : y < B) :
    mul (.small x) (.small y) =
      if x * y / B = 0 then some (.small (x * y % B))
      else some (.large [x * y % B, x * y / B]) := by
  rcases x with _ | (_ | x)
  · simp [mul, Nat.zero_div]
  · rcases y with _ | y
    · simp [mul, Natural.ZERO]
    · simp [mul, Nat.one_mul, Nat.div_eq_of_lt hy, Nat.mod_eq_of_lt hy]
  · rcases y with _ | (_ | y)
    · simp [mul, Natural.ZERO, Nat.zero_div]
    · simp [mul, Nat.mul_one, Nat.div_eq_of_lt hx, Nat.mod_eq_of_lt hx]
    · by_cases h : (x + 2) * (y + 2) / B = 0 <;>
        simp [mul, widening_mul, h]

/-- Witness for C4: `Small(MAX) * Small(MAX)` is the two-limb value
`[1, MAX - 1]`. -/
theorem mul_small_small_widening_witness :
    mul (.small (B - 1)) (.small (B - 1)) = some (.large [1, B - 2]) := by
  have h1 : 2 < B := by simp [B, W]
  have h := mul_small_small_widening (B - 1) (B - 1) (by omega) (by omega)
  have hprod : (B - 1) * (B - 1) = B * (B - 2) + 1 := by
    obtain ⟨k, hk⟩ : ∃ k, B = k + 2 := ⟨B - 2, by omega⟩
    rw [hk]
    show (k + 1) * (k + 1) = (k + 2) * k + 1
    ring
  have hdiv : (B - 1) * (B - 1) / B = B - 2 := by
    rw [hprod, Nat.mul_add_div (by omega), Nat.div_eq_of_lt (by omega)]
    omega
  have hmod : (B - 1) * (B - 1) % B = 1 := by
    rw [hprod, Nat.mul_add_mod, Nat.mod_eq_of_lt (by omega)]
  rw [hdiv, hmod, if_neg (by omega)] at h
  exact h

/-- C6: adding `ZERO` to any well-formed `Natural` returns it unchanged:
the limb sum with `0` never overflows, so no carry ripples and the stored
limbs are untouched. -/
theorem add_zero_identity (a : Natural) (ha : Wf a) :
    add a Natural.ZERO = some a := by
  rcases a with x | l
  · have hx : x < B := ha
    simp [add, Natural.ZERO, overflowing_add, Nat.not_le.mpr hx,
      Nat.mod_eq_of_lt hx]
  · rcases l with _ | ⟨x0, xs⟩
    · simp [Wf] at ha
    · have hx0 : x0 < B := ha.2 x0 (by simp)
      simp [add, Natural.ZERO, addLargeSmall, overflowing_add,
        Nat.not_le.mpr hx0, Nat.mod_eq_of_lt hx0, ripple]

/-- Witness for C6 at a concrete two-limb value. -/
theorem add_zero_identity_witness :
    add (.large [3, 4]) Natural.ZERO = some (.large [3, 4]) :=
  add_zero_identity (.large [3, 4]) (by decide)

/-- Rippling a set carry through a run of all-maximal limbs zeroes each of
them and finally appends a limb of value `1`. -/
theorem ripple_replicate_max (k : Nat) :
    ripple (List.replicate k (B - 1)) true = List.replicate k 0 ++ [1] := by
  have hB : 1 ≤ B := Nat.one_le_of_lt one_lt_B
  induction k with
  | zero => rfl
  | succ n ih =>
      have h1 : (overflowing_add (B - 1) 1).1 = 0 := by
        simp [overflowing_add, Nat.sub_add_cancel hB]
      have h2 : (overflowing_add (B - 1) 1).2 = true := by
        simp [overflowing_add, Nat.sub_add_cancel hB]
      rw [List.replicate_succ]
      simp only [ripple, h1, h2, ih]
      simp [List.replicate_succ]

/-- Carrying a set carry through all-maximal limbs while adding zeros zeroes
each limb and finally appends a limb of value `1`. -/
theorem addLimbs_replicate_max (k : Nat) :
    addLimbs (List.replicate k (B - 1)) (List.replicate k 0) true =
      List.replicate k 0 ++ [1] := by
  have hB : 1 ≤ B := Nat.one_le_of_lt one_lt_B
  induction k with
  | zero => rfl
  | succ n ih =>
      have h1 : (carrying_add (B - 1) 0 true).1 = 0 := by
        simp [carrying_add, Nat.sub_add_cancel hB]
      have h2 : (carrying_add (B - 1) 0 true).2 = true := by
        simp [carrying_add, Nat.sub_add_cancel hB]
      simp only [List.replicate_succ, addLimbs, h1, h2, ih]
      simp

/-- C3: adding one to a `Large` value whose limbs are all maximal, either as
`Small(1)` or as a same-length `Large` representing 1, grows the sequence by
exactly one limb, zeroing every original limb and appending a final limb of
value `1`. -/
theorem add_carry_ripple_all_max (n : Nat) (h : 2 ≤ n) :
    add (.large (List.replicate n (B - 1))) (.small 1) =
        some (.large (List.replicate n 0 ++ [1])) ∧
      add (.large (List.replicate n (B - 1)))
          (.large (1 :: List.replicate (n - 1) 0)) =
        some (.large (List.replicate n 0 ++ [1])) := by
  have hB : 1 ≤ B := Nat.one_le_of_lt one_lt_B
  obtain ⟨m, rfl⟩ : ∃ m, n = m + 1 := ⟨n - 1, by omega⟩
  constructor
  · have h1 : (overflowing_add (B - 1) 1).1 = 0 := by
      simp [overflowing_add, Nat.sub_add_cancel hB]
    have h2 : (overflowing_add (B - 1) 1).2 = true := by
      simp [overflowing_add, Nat.sub_add_cancel hB]
    rw [List.replicate_succ]
    simp only [add, addLargeSmall, h1, h2, ripple_replicate_max]
    simp [List.replicate_succ]
  · have hlen : ¬ (List.replicate (m + 1) (B - 1)).length <
        (1 :: List.replicate (m + 1 - 1) 0).length := by
      simp
    have h1 : (carrying_add (B - 1) 1 false).1 = 0 := by
      simp [carrying_add, Nat.sub_add_cancel hB]
    have h2 : (carrying_add (B - 1) 1 false).2 = true := by
      simp [carrying_add, Nat.sub_add_cancel hB]
    simp only [add, if_neg hlen, Nat.add_sub_cancel]
    rw [List.replicate_succ]
    simp only [addLimbs, h1, h2, addLimbs_replicate_max]
    simp [List.replicate_succ]

/-- Witness for C3, the example from the spec: three maximal limbs plus one
give `[0, 0, 0, 1]`. -/
theorem add_carry_ripple_all_max_witness :
    add (.large (List.replicate 3 (B - 1))) (.small 1) =
        some (.large (List.replicate 3 0 ++ [1])) ∧
      add (.large (List.replicate 3 (B - 1)))
          (.large (1 :: List.replicate (3 - 1) 0)) =
        some (.large (List.replicate 3 0 ++ [1])) :=
  add_carry_ripple_all_max 3 (by omega)

/-- Every limb produced by the carry ripple is a valid `u64` value. -/
theorem ripple_lt (l : List Nat) : ∀ (c : Bool), (∀ u ∈ l, u < B) →
    ∀ u ∈ ripple l c, u < B := by
  induction l with
  | nil =>
      intro c _ u hu
      cases c with
      | false => simp [ripple] at hu
      | true =>
          simp [ripple] at hu
          subst hu
          exact one_lt_B
  | cons x xs ih =>
      intro c hl u hu
      cases c with
      | false =>
          simp only [ripple] at hu
          exact hl u hu
      | true =>
          simp only [ripple] at hu
          rcases List.mem_cons.mp hu with h1 | h1
          · subst h1
            exact Nat.mod_lt _ B_pos
          · exact ih _ (fun v hv => hl v (List.mem_cons_of_mem _ hv)) u h1

/-- The carry ripple either keeps the list length or appends exactly one limb
whose value is `1` (then the last element is that `1`). -/
theorem ripple_spec (l : List Nat) : ∀ (c : Bool),
    (ripple l c).length = l.length ∨
      ((ripple l c).length = l.length + 1 ∧ (ripple l c).getLast? = some 1) := by
  induction l with
  | nil =>
      intro c
      cases c with
      | false => exact Or.inl rfl
      | true => exact Or.inr ⟨rfl, rfl⟩
  | cons x xs ih =>
      intro c
      cases c with
      | false => exact Or.inl rfl
      | true =>
          rcases ih (overflowing_add x 1).2 with h | ⟨h1, h2⟩
          · exact Or.inl (by simp [ripple, h])
          · refine Or.inr ⟨by simp [ripple, h1], ?_⟩
            rcases hrip : ripple xs (overflowing_add x 1).2 with _ | ⟨r, rs⟩
            · rw [hrip] at h1
              simp at h1
            · show ((overflowing_add x 1).1 ::
                  ripple xs (overflowing_add x 1).2).getLast? = some 1
              rw [hrip, List.getLast?_cons_cons, ← hrip]
              exact h2

/-- Every limb produced by the `Large + Large` limb loop is a valid `u64`
value, provided the accumulator list holds valid values. -/
theorem addLimbs_lt (x : List Nat) : ∀ (y : List Nat) (c : Bool),
    (∀ u ∈ x, u < B) → ∀ u ∈ addLimbs x y c, u < B := by
  induction x with
  | nil =>
      intro y c hx u hu
      have h : addLimbs [] y c = ripple [] c := by cases y <;> rfl
      rw [h] at hu
      exact ripple_lt [] c (by simp) u hu
  | cons x0 xs ih =>
      intro y c hx
      cases y with
      | nil =>
          intro u hu
          have h : addLimbs (x0 :: xs) [] c = ripple (x0 :: xs) c := rfl
          rw [h] at hu
          exact ripple_lt _ c hx u hu
      | cons y0 ys =>
          intro u hu
          simp only [addLimbs] at hu
          rcases List.mem_cons.mp hu with h1 | h1
          · subst h1
            exact Nat.mod_lt _ B_pos
          · exact ih ys _ (fun v hv => hx v (List.mem_cons_of_mem _ hv)) u h1

/-- The `Large + Large` limb loop either keeps the accumulator length or
appends exactly one limb of value `1` (then the last element is that `1`). -/
theorem addLimbs_spec (x : List Nat) : ∀ (y : List Nat) (c : Bool),
    (addLimbs x y c).length = x.length ∨
      ((addLimbs x y c).length = x.length + 1 ∧
        (addLimbs x y c).getLast? = some 1) := by
  induction x with
  | nil =>
      intro y c
      have h : addLimbs [] y c = ripple [] c := by cases y <;> rfl
      rw [h]
      exact ripple_spec [] c
  | cons x0 xs ih =>
      intro y c
      cases y with
      | nil =>
          have h : addLimbs (x0 :: xs) [] c = ripple (x0 :: xs) c := rfl
          rw [h]
          exact ripple_spec _ c
      | cons y0 ys =>
          rcases ih ys (carrying_add x0 y0 c).2 with h | ⟨h1, h2⟩
          · exact Or.inl (by simp [addLimbs, h])
          · refine Or.inr ⟨by simp [addLimbs, h1], ?_⟩
            rcases hrec : addLimbs xs ys (carrying_add x0 y0 c).2 with _ | ⟨r, rs⟩
            · rw [hrec] at h1
              simp at h1
            · show ((carrying_add x0 y0 c).1 ::
                  addLimbs xs ys (carrying_add x0 y0 c).2).getLast? = some 1
              rw [hrec, List.getLast?_cons_cons, ← hrec]
              exact h2

/-- Shape of the `Large + Small` result: a `Large` value at least as long as
the input, with valid limbs, growing by at most one limb and then ending in
`1`. -/
theorem addLargeSmall_spec (l : List Nat) (s : Nat) (h2 : 2 ≤ l.length)
    (hl : ∀ u ∈ l, u < B) :
    ∃ m, addLargeSmall l s = some (.large m) ∧ 2 ≤ m.length ∧
      (∀ u ∈ m, u < B) ∧ l.length ≤ m.length ∧
      (l.length < m.length →
        m.length = l.length + 1 ∧ m.getLast? = some 1) := by
  rcases l with _ | ⟨x0, xs⟩
  · simp at h2
  · refine ⟨(overflowing_add x0 s).1 :: ripple xs (overflowing_add x0 s).2,
      rfl, ?_, ?_, ?_, ?_⟩
    · rcases ripple_spec xs (overflowing_add x0 s).2 with h | ⟨h1, _⟩ <;>
        simp only [List.length_cons] <;> simp at h2 ⊢ <;> omega
    · intro u hu
      rcases List.mem_cons.mp hu with h1 | h1
      · subst h1
        exact Nat.mod_lt _ B_pos
      · exact ripple_lt xs _ (fun v hv => hl v (List.mem_cons_of_mem _ hv)) u h1
    · rcases ripple_spec xs (overflowing_add x0 s).2 with h | ⟨h1, _⟩
      · simp only [List.length_cons, h]
        omega
      · simp only [List.length_cons, h1]
        omega
    · intro hgrow
      rcases ripple_spec xs (overflowing_add x0 s).2 with h | ⟨h1, hlast⟩
      · simp [h] at hgrow
      · refine ⟨by simp [h1], ?_⟩
        rcases hrip : ripple xs (overflowing_add x0 s).2 with _ | ⟨r, rs⟩
        · rw [hrip] at h1
          simp at h1
        · rw [List.getLast?_cons_cons]
          rw [hrip] at hlast
          exact hlast

/-- Shape of the `Large + Large` result list: at least as long as the
accumulator, valid limbs, growing by at most one limb and then ending in
`1`. -/
theorem addLimbs_large_spec (x y : List Nat) (h2 : 2 ≤ x.length)
    (hx : ∀ u ∈ x, u < B) :
    2 ≤ (addLimbs x y false).length ∧ (∀ u ∈ addLimbs x y false, u < B) ∧
      x.length ≤ (addLimbs x y false).length ∧
      (x.length < (addLimbs x y false).length →
        (addLimbs x y false).length = x.length + 1 ∧
          (addLimbs x y false).getLast? = some 1) := by
  rcases addLimbs_spec x y false with h | ⟨h1, hlast⟩
  · exact ⟨by omega, addLimbs_lt x y false hx, by omega,
      fun hc => absurd hc (by omega)⟩
  · exact ⟨by omega, addLimbs_lt x y false hx, by omega, fun _ => ⟨h1, hlast⟩⟩

/-- C10: addition preserves the representation invariant and never shrinks
the stored limb count: the result of adding well-formed operands is again
well-formed, at least as many limbs as either operand are stored, the result
is `Small` exactly when both operands are `Small` and their limb sum does
not overflow, and whenever the limb count grows the new most significant
limb is exactly `1`. -/
theorem add_preserves_repr_invariant (a b : Natural) (ha : Wf a) (hb : Wf b) :
    ∃ c, add a b = some c ∧ Wf c ∧ max (size a) (size b) ≤ size c ∧
      ((∃ z, c = Natural.small z) ↔
        ∃ x y, a = Natural.small x ∧ b = Natural.small y ∧ x + y < B) ∧
      (max (size a) (size b) < size c →
        size c = max (size a) (size b) + 1 ∧ msLimb c = some 1) := by
  rcases a with x | xl <;> rcases b with y | yl
  · by_cases hov : x + y < B
    · refine ⟨.small (x + y), ?_, hov, by simp [size], ?_, ?_⟩
      · simp [add, overflowing_add, Nat.not_le.mpr hov, Nat.mod_eq_of_lt hov]
      · exact ⟨fun _ => ⟨x, y, rfl, rfl, hov⟩, fun _ => ⟨x + y, rfl⟩⟩
      · intro hgrow
        simp [size] at hgrow
    · refine ⟨.large [(x + y) % B, 1], ?_, ?_, by simp [size], ?_, ?_⟩
      · simp [add, overflowing_add, Nat.not_lt.mp hov]
      · refine ⟨by simp, ?_⟩
        intro u hu
        simp at hu
        rcases hu with rfl | rfl
        · exact Nat.mod_lt _ B_pos
        · exact one_lt_B
      · constructor
        · rintro ⟨z, hz⟩
          exact absurd hz (by simp)
        · rintro ⟨x', y', hx', hy', hlt⟩
          injection hx' with hxx
          injection hy' with hyy
          subst hxx
          subst hyy
          exact absurd hlt hov
      · intro _
        exact ⟨by simp [size], by simp [msLimb]⟩
  · obtain ⟨m, hm, hm2, hmlt, hmlen, hmgrow⟩ := addLargeSmall_spec yl x hb.1 hb.2
    refine ⟨.large m, ?_, ⟨hm2, hmlt⟩, ?_, ?_, ?_⟩
    · simpa [add] using hm
    · have hyl2 : 2 ≤ yl.length := hb.1
      simp only [size]
      omega
    · constructor
      · rintro ⟨z, hz⟩
        exact absurd hz (by simp)
      · rintro ⟨x', y', _, hy', _⟩
        exact absurd hy' (by simp)
    · intro hgrow
      simp only [size] at hgrow ⊢
      have hyl2 : 2 ≤ yl.length := hb.1
      obtain ⟨hl1, hl2⟩ := hmgrow (by omega)
      refine ⟨by omega, ?_⟩
      simpa [msLimb] using hl2
  · obtain ⟨m, hm, hm2, hmlt, hmlen, hmgrow⟩ := addLargeSmall_spec xl y ha.1 ha.2
    refine ⟨.large m, ?_, ⟨hm2, hmlt⟩, ?_, ?_, ?_⟩
    · simpa [add] using hm
    · have hxl2 : 2 ≤ xl.length := ha.1
      simp only [size]
      omega
    · constructor
      · rintro ⟨z, hz⟩
        exact absurd hz (by simp)
      · rintro ⟨x', y', hx', _, _⟩
        exact absurd hx' (by simp)
    · intro hgrow
      simp only [size] at hgrow ⊢
      have hxl2 : 2 ≤ xl.length := ha.1
      obtain ⟨hl1, hl2⟩ := hmgrow (by omega)
      refine ⟨by omega, ?_⟩
      simpa [msLimb] using hl2
  · by_cases hlen : xl.length < yl.length
    · obtain ⟨g2, glt, glen, ggrow⟩ := addLimbs_large_spec yl xl hb.1 hb.2
      refine ⟨.large (addLimbs yl xl false), ?_, ⟨g2, glt⟩, ?_, ?_, ?_⟩
      · simp [add, hlen]
      · simp only [size]
        omega
      · constructor
        · rintro ⟨z, hz⟩
          exact absurd hz (by simp)
        · rintro ⟨x', y', hx', _, _⟩
          exact absurd hx' (by simp)
      · intro hgrow
        simp only [size] at hgrow ⊢
        obtain ⟨hg1, hg2⟩ := ggrow (by omega)
        refine ⟨by omega, ?_⟩
        simpa [msLimb] using hg2
    · obtain ⟨g2, glt, glen, ggrow⟩ := addLimbs_large_spec xl yl ha.1 ha.2
      refine ⟨.large (addLimbs xl yl false), ?_, ⟨g2, glt⟩, ?_, ?_, ?_⟩
      · simp [add, hlen]
      · simp only [size]
        omega
      · constructor
        · rintro ⟨z, hz⟩
          exact absurd hz (by simp)
        · rintro ⟨x', y', hx', _, _⟩
          exact absurd hx' (by simp)
      · intro hgrow
        simp only [size] at hgrow ⊢
        obtain ⟨hg1, hg2⟩ := ggrow (by omega)
        refine ⟨by omega, ?_⟩
        simpa [msLimb] using hg2

/-- Witness for C10 at a concrete pair whose sum grows by one limb. -/
theorem add_preserves_repr_invariant_witness :
    ∃ c, add (.large [B - 1, B - 1]) (.small 1) = some c ∧ Wf c ∧
      max (size (.large [B - 1, B - 1])) (size (.small 1)) ≤ size c ∧
      ((∃ z, c = Natural.small z) ↔
        ∃ x y, Natural.large [B - 1, B - 1] = Natural.small x ∧
          Natural.small 1 = Natural.small y ∧ x + y < B) ∧
      (max (size (.large [B - 1, B - 1])) (size (.small 1)) < size c →
        size c = max (size (.large [B - 1, B - 1])) (size (.small 1)) + 1 ∧
          msLimb c = some 1) :=
  add_preserves_repr_invariant (.large [B - 1, B - 1]) (.small 1)
    (by decide) (by decide)

end Rkn
